import Mathlib

/-!
Verification of the c-chess-cli core (engine protocol driver and game
driver/adjudicator) against its natural-language specification.

The development shallowly embeds `src/engine.c` and `src/game.c`:

* The chess module (move generation, FEN, LAN/SAN, position application,
  insufficient-material test) is out of scope of the core and is modelled as a
  record of opaque-but-executable functions (`ChessModule`), exactly the
  collaborator contract of spec §6.
* `Position` carries only the attributes the core reads: side to move,
  rule50 counter, checkers flag (the C code only tests the bitboard for
  non-zero, so a `Bool` suffices), repetition key, last move, full-move number.
* Engine I/O is modelled by the list of lines the engine will produce, each
  paired with the number of milliseconds the monotonic clock advances while
  that line is being read (`deadline - system_msec()` bookkeeping of
  `engine_bestmove`), plus the list of lines the driver writes back.
* `die()` (fatal error) and a blocking read with no line left are modelled by
  `Option`: `none` is the fatal outcome.
* C `int` scores are modelled as unbounded `Int`, with the `INT_MIN`/`INT_MAX`
  sentinels of the mate handling made explicit constants (32-bit limits).
-/

namespace CChessCli

/-- Move encoding (`move_t` is an integer encoding in the C source). -/
abbrev Move := Nat

/-- `WHITE` of the C source (`turn` field values). -/
def WHITE : Nat := 0

/-- `BLACK` of the C source. -/
def BLACK : Nat := 1

/-- The attributes of a `Position` that the core reads (spec §3: the core
relies on side-to-move, 50-move counter, in-check flag, repetition key, last
move, full-move number; everything else is the chess module's business). -/
structure Position where
  turn : Nat
  rule50 : Nat
  checkers : Bool
  key : Nat
  lastMove : Move
  fullMove : Nat
  deriving Repr, DecidableEq, Inhabited

/-- Result tags. Constructor set and order from `src/src/game.h` (the `STATE_`
enumeration: `NONE`, then the losses `CHECKMATE`, `TIME_LOSS`, `ILLEGAL_MOVE`,
`RESIGN`, then the draws; the `SEPARATOR` marker is not a value and is
omitted). `src/game.c` spells these `RESULT_*`. -/
inductive Result where
  | RESULT_NONE
  | RESULT_CHECKMATE
  | RESULT_TIME_LOSS
  | RESULT_ILLEGAL_MOVE
  | RESULT_RESIGN
  | RESULT_STALEMATE
  | RESULT_THREEFOLD
  | RESULT_FIFTY_MOVES
  | RESULT_INSUFFICIENT_MATERIAL
  | RESULT_DRAW_ADJUDICATION
  deriving Repr, DecidableEq, Inhabited

export Result (RESULT_NONE RESULT_CHECKMATE RESULT_TIME_LOSS RESULT_ILLEGAL_MOVE
  RESULT_RESIGN RESULT_STALEMATE RESULT_THREEFOLD RESULT_FIFTY_MOVES
  RESULT_INSUFFICIENT_MATERIAL RESULT_DRAW_ADJUDICATION)

/-- The chess-module collaborator contract (spec §6): the external functions
`gen_all_moves`, `pos_insufficient_material`, `pos_get` (FEN), `pos_move_to_lan`,
`pos_lan_to_move`, `pos_move` that the core calls. -/
structure ChessModule where
  genAllMoves : Position → List Move
  insufficientMaterial : Position → Bool
  posGet : Position → String
  moveToLan : Position → Move → Bool → String
  lanToMove : Position → String → Bool → Move
  posMove : Position → Move → Position

/-- `g->pos[i]` (out-of-range reads never happen on the C side; `getD` with the
default position keeps the Lean functions total). -/
def posAt (hist : List Position) (i : Nat) : Position :=
  hist.getD i default

/-! ### String tokenization and integer parsing (`str_tok`, `atoi`) -/

/-- Worker for `tok`: `acc` is the (reversed) current token being built;
spaces close the current token, everything else extends it. -/
def tokGo : List Char → List Char → List String
  | [], acc => if acc = [] then [] else [String.mk acc.reverse]
  | c :: cs, acc =>
    if c = ' ' then
      if acc = [] then tokGo cs [] else String.mk acc.reverse :: tokGo cs []
    else tokGo cs (c :: acc)

/-- The token sequence produced by repeated `str_tok(.., " ")`: maximal
non-empty runs of non-space characters (leading/trailing/repeated spaces
are skipped, exactly as `str_tok` does). -/
def tok (s : String) : List String :=
  tokGo s.data []

/-- Value of a decimal digit string (the digit-consuming loop of `atoi`). -/
def digitsVal : List Char → Int → Int
  | [], acc => acc
  | c :: cs, acc =>
    if c.isDigit then digitsVal cs (acc * 10 + (c.toNat - '0'.toNat : Nat))
    else acc

/-- C `atoi`: skip leading whitespace, optional sign, then a maximal digit
run (overflow is undefined behaviour in C; modelled exactly on `Int`). -/
def atoi (s : String) : Int :=
  match s.data.dropWhile (fun c => c.isWhitespace) with
  | '-' :: cs => - digitsVal cs 0
  | '+' :: cs => digitsVal cs 0
  | cs => digitsVal cs 0

/-- `INT_MIN` for the 32-bit `int` of the C source. -/
def intMin : Int := -2147483648

/-- `INT_MAX` for the 32-bit `int` of the C source. -/
def intMax : Int := 2147483647

/-! ### `engine_bestmove` (src/engine.c lines 141-185) -/

/-- One line read from the engine, paired with how many milliseconds the
monotonic clock advances while it is being read. -/
abbrev TimedLine := String × Nat

/-- The `info` branch of `engine_bestmove` (engine.c lines 157-167): scan the
tokens after `info` for `score`; after `score` expect `cp <int>` or
`mate <int>` (negative mate ⇒ `INT_MIN`, otherwise `INT_MAX`); any other
syntax after `score` is `die()` (`none`). Returns the new score. -/
def infoScore (ws : List String) (score : Int) : Option Int :=
  match ws.dropWhile (fun t => t ≠ "score") with
  | [] => some score
  | _ :: after =>
    match after with
    | [] => some score
    | u :: rest =>
      if u = "cp" then
        match rest with
        | v :: _ => some (atoi v)
        | [] => none
      else if u = "mate" then
        match rest with
        | v :: _ => some (if atoi v < 0 then intMin else intMax)
        | [] => none
      else none

/-- Outcome of the main read loop of `engine_bestmove`: the captured best move
(`none` while `result` stayed false), the score, the remaining `timeLeft`, and
the unread input lines. -/
structure MainOut where
  best : Option String
  score : Int
  timeLeft : Int
  rest : List TimedLine
  deriving Repr, DecidableEq

/-- The main `while (*timeLeft >= 0 && !result)` loop of `engine_bestmove`
(engine.c lines 149-172): check the budget, read a line, charge its elapsed
time against the budget, then dispatch on the first token (`info` parsed for a
score, `bestmove` with a second token captured and success, anything else
ignored). `none` models `die()` (input exhausted or malformed `score`). -/
def bmMain : List TimedLine → Int → Int → Option MainOut
  | lines, t, score =>
    if t < 0 then some ⟨none, score, t, lines⟩
    else
      match lines with
      | [] => none
      | (l, c) :: rest =>
        let t2 := t - c
        match tok l with
        | [] => bmMain rest t2 score
        | w :: ws =>
          if w = "info" then
            match infoScore ws score with
            | none => none
            | some s2 => bmMain rest t2 s2
          else if w = "bestmove" then
            match ws with
            | m :: _ => some ⟨some m, score, t2, rest⟩
            | [] => bmMain rest t2 score
          else bmMain rest t2 score

/-- `strncmp(line, "bestmove ", strlen("bestmove ")) == 0`: the line starts
with the 9 characters `bestmove ` (note the trailing space — this is a raw
character comparison, not a token test). -/
def hasBestmoveSpace (l : String) : Bool :=
  "bestmove ".data.isPrefixOf l.data

/-- The timeout drain of `engine_bestmove` (engine.c lines 178-180): read and
discard lines until one starts with `bestmove ` (`strncmp`); return the
unread remainder, `none` when input runs out (`engine_readln` would
`die()`). -/
def bmDrain : List TimedLine → Option (List TimedLine)
  | [] => none
  | (l, _) :: rest =>
    if hasBestmoveSpace l then some rest else bmDrain rest

/-- Result of `engine_bestmove`: the returned boolean (`true` = best move
found within budget), the score out-parameter, the best-move out-parameter
(unchanged, hence `none`, on timeout), the final `timeLeft`, the unread
input, and the lines written to the engine during the call. -/
structure BMOut where
  ok : Bool
  score : Int
  best : Option String
  timeLeft : Int
  rest : List TimedLine
  writes : List String
  deriving Repr, DecidableEq

/-- `engine_bestmove` (engine.c lines 141-185): score initialized to 0, main
read loop, and on timeout (`!result`) write `stop` and drain to a
`bestmove `-prefixed line. -/
def engine_bestmove (lines : List TimedLine) (timeLeft : Int) : Option BMOut :=
  match bmMain lines timeLeft 0 with
  | none => none
  | some out =>
    match out.best with
    | some m => some ⟨true, out.score, some m, out.timeLeft, out.rest, []⟩
    | none =>
      match bmDrain out.rest with
      | none => none
      | some rest2 => some ⟨false, out.score, none, out.timeLeft, rest2, ["stop"]⟩

end CChessCli

namespace CChessCli

/-! ### `game.c`: game state, `game_result`, `uci_position_command` -/

/-- The game options that the old `game_play` reads (spec §3): `chess960`,
the per-side `go` limits (not modelled — they only shape the `go` string),
and the draw/resign adjudication parameters (C `int`s). -/
structure GameOptions where
  chess960 : Bool
  drawScore : Int
  drawCount : Int
  resignScore : Int
  resignCount : Int
  deriving Repr, DecidableEq

/-- The finished-game record: position history (`g->pos[0..ply]`), the final
ply, and the result tag. -/
structure Game where
  hist : List Position
  ply : Nat
  result : Result
  deriving Repr, DecidableEq

/-- The repetition scan of `game_result` (game.c lines 60-64):
`for (int i = 4; i <= rule50 && i <= ply; i += 2) if (key match && ++repetitions >= 3) return THREEFOLD`.
Arguments: remaining fuel (the `for` loop runs at most `ply/2` iterations, so
`ply + 1` steps always suffice), the current distance `i`, and the running
`repetitions` count (which starts at 1, counting the current position). -/
def repScanGo (hist : List Position) (ply rule50 key : Nat) : Nat → Nat → Nat → Bool
  | 0, _, _ => false
  | fuel + 1, i, reps =>
    if i ≤ rule50 ∧ i ≤ ply then
      if (posAt hist (ply - i)).key = key then
        if reps + 1 ≥ 3 then true
        else repScanGo hist ply rule50 key fuel (i + 2) (reps + 1)
      else repScanGo hist ply rule50 key fuel (i + 2) reps
    else false

/-- The full repetition scan, started at distance `i = 4` with
`repetitions = 1`, exactly as in `game_result`. -/
def repScan (hist : List Position) (ply rule50 key : Nat) : Bool :=
  repScanGo hist ply rule50 key (ply + 1) 4 1

/-- `game_result` (game.c lines 44-68). The legal-move list is obtained from
the chess module (`gen_all_moves`); the C function also hands that list back
to the caller through out-parameters, which the embedding lets the caller
recompute (the module is a pure function). `NDEBUG` semantics: the
`assert(pos->rule50 == 100)` is a no-op. -/
def game_result (cm : ChessModule) (hist : List Position) (ply : Nat) : Result :=
  let pos := posAt hist ply
  if cm.genAllMoves pos = [] then
    if pos.checkers then RESULT_CHECKMATE else RESULT_STALEMATE
  else if pos.rule50 ≥ 100 then RESULT_FIFTY_MOVES
  else if cm.insufficientMaterial pos then RESULT_INSUFFICIENT_MATERIAL
  else if repScan hist ply pos.rule50 pos.key then RESULT_THREEFOLD
  else RESULT_NONE

/-- `illegal_move` (game.c lines 70-77): the move is illegal iff it is not in
the generated legal-move list. -/
def illegal_move (move : Move) (moves : List Move) : Bool :=
  !(moves.contains move)

/-- The `for (ply = ply0+1; ply <= g->ply; ply++)` move-appending loop of
`uci_position_command` as a fold over the visited plies. -/
def uciMovesFold (cm : ChessModule) (hist : List Position) (chess960 : Bool)
    (plies : List Nat) (cmd : String) : String :=
  plies.foldl
    (fun acc p => acc ++ " " ++ cm.moveToLan (posAt hist (p - 1)) (posAt hist p).lastMove chess960)
    cmd

/-- `uci_position_command` (game.c lines 20-42): rule50 pruning — start from
`ply0 = max(ply - rule50, 0)` (note `Nat` subtraction is exactly this `max`),
emit `position fen <FEN(pos[ply0])>`, and when `ply0 < ply` append ` moves`
followed by the LAN of each move from `ply0+1` to `ply`, linearized against
its predecessor position with the `chess960` flag. -/
def uci_position_command (cm : ChessModule) (hist : List Position) (ply : Nat)
    (chess960 : Bool) : String :=
  let ply0 := ply - (posAt hist ply).rule50
  let cmd := "position fen " ++ cm.posGet (posAt hist ply0)
  if ply0 < ply then
    uciMovesFold cm hist chess960 (List.range' (ply0 + 1) (ply - ply0)) (cmd ++ " moves")
  else cmd

/-! ### `game_play` (game.c lines 104-192) -/

/-- The resign-adjudication step of `game_play` (game.c lines 180-187):
`if (resignCount && score <= -resignScore) { if (++resignCount[turn] >= resignCount) RESIGN }
else resignCount[turn] = 0`. Returns (fired result, drawPlyCount passed
through, updated per-side resign counters). `turn` is `ply % 2`
(first/second engine, not white/black). -/
def resignStep (go : GameOptions) (turn : Nat) (score : Int) (d : Int)
    (rc : Int × Int) : Option Result × Int × (Int × Int) :=
  if go.resignCount ≠ 0 ∧ score ≤ -go.resignScore then
    let r := (if turn = 0 then rc.1 else rc.2) + 1
    let rc2 := if turn = 0 then (r, rc.2) else (rc.1, r)
    if r ≥ go.resignCount then (some RESULT_RESIGN, d, rc2) else (none, d, rc2)
  else (none, d, if turn = 0 then (0, rc.2) else (rc.1, 0))

/-- The draw-then-resign adjudication of `game_play` (game.c lines 171-187):
`if (drawCount && abs(score) <= drawScore) { if (++drawPlyCount >= 2*drawCount) DRAW }
else drawPlyCount = 0`, then (when the draw rule did not break) the resign
step. Returns (fired result, new drawPlyCount, new resign counters). -/
def adjudicate (go : GameOptions) (turn : Nat) (score : Int) (d : Int)
    (rc : Int × Int) : Option Result × Int × (Int × Int) :=
  if go.drawCount ≠ 0 ∧ |score| ≤ go.drawScore then
    let d2 := d + 1
    if d2 ≥ 2 * go.drawCount then (some RESULT_DRAW_ADJUDICATION, d2, rc)
    else resignStep go turn score d2 rc
  else resignStep go turn score 0 rc

/-- The per-ply engine interaction, abstracted: for each ply the engine of
`ply % 2` eventually answers the `go` command with a score and a best-move
string (the `engine_bestmove` call of game.c line 161, whose protocol-level
behaviour is verified separately on `engine_bestmove`). -/
abbrev Oracle := Nat → Int × String

/-- Mutable state of the `game_play` main loop across iterations. -/
structure GPState where
  hist : List Position
  played : Option Move
  drawPlyCount : Int
  resignCnt : Int × Int
  deriving Repr, DecidableEq

/-- The main loop of `game_play` (game.c lines 136-188), one constructor per
iteration, fuel-bounded (the C loop can in principle run forever; `none`
means the fuel ran out, never that the game ended). An iteration: append the
previously played move's position (`pos_move`) unless this is the first
iteration; check `game_result` and break when it fires; query the engine;
parse the LAN answer (`pos_lan_to_move`); break on an illegal move; run
draw/resign adjudication; continue. On every break the final `Game` holds
the history, the current ply, and the stored result tag. -/
def gamePlayGo (cm : ChessModule) (go : GameOptions) (oracle : Oracle) :
    Nat → GPState → Option Game
  | 0, _ => none
  | fuel + 1, st =>
    let hist := match st.played with
      | none => st.hist
      | some m => st.hist ++ [cm.posMove (posAt st.hist (st.hist.length - 1)) m]
    let ply := hist.length - 1
    let pos := posAt hist ply
    let r := game_result cm hist ply
    if r ≠ RESULT_NONE then some ⟨hist, ply, r⟩
    else
      let turn := ply % 2
      let (score, lan) := oracle ply
      let played := cm.lanToMove pos lan go.chess960
      if illegal_move played (cm.genAllMoves pos) then
        some ⟨hist, ply, RESULT_ILLEGAL_MOVE⟩
      else
        match adjudicate go turn score st.drawPlyCount st.resignCnt with
        | (some res, _, _) => some ⟨hist, ply, res⟩
        | (none, d2, rc2) => gamePlayGo cm go oracle fuel ⟨hist, some played, d2, rc2⟩

/-- `game_play` on a fresh game (`game_new`): history `[pos0]`, no move
played yet, adjudication counters zeroed (game.c lines 133-134). -/
def game_play (cm : ChessModule) (go : GameOptions) (oracle : Oracle)
    (pos0 : Position) (fuel : Nat) : Option Game :=
  gamePlayGo cm go oracle fuel ⟨[pos0], none, 0, (0, 0)⟩

/-! ### `game_decode_result` (game.c lines 194-230) -/

/-- `game_decode_result`: map the stored result tag to the wire result and
termination reason, reading `g->pos[g->ply].turn` for the tags whose loser is
the side to move. The final `else assert(false)` (an unhandled tag — there is
no `RESULT_TIME_LOSS` branch in game.c) is modelled as `none`. -/
def game_decode_result (g : Game) : Option (String × String) :=
  let turn := (posAt g.hist g.ply).turn
  if g.result = RESULT_NONE then some ("*", "unterminated")
  else if g.result = RESULT_CHECKMATE then
    some (if turn = WHITE then "0-1" else "1-0", "checkmate")
  else if g.result = RESULT_STALEMATE then some ("1/2-1/2", "stalemate")
  else if g.result = RESULT_THREEFOLD then some ("1/2-1/2", "3 repetitions")
  else if g.result = RESULT_FIFTY_MOVES then some ("1/2-1/2", "50 move rule")
  else if g.result = RESULT_INSUFFICIENT_MATERIAL then
    some ("1/2-1/2", "insufficient material")
  else if g.result = RESULT_ILLEGAL_MOVE then
    some (if turn = WHITE then "0-1" else "1-0", "illegal move")
  else if g.result = RESULT_DRAW_ADJUDICATION then
    some ("1/2-1/2", "draw by adjudication")
  else if g.result = RESULT_RESIGN then
    some (if turn = WHITE then "0-1" else "1-0",
      if turn = WHITE then "white resigns" else "black resigns")
  else none

end CChessCli

namespace CChessCli

/-! ### Time-controlled `game_play` (modelled from the spec) -/

/-- Per-ply engine answer under time control: `none` is a timed-out
best-move request (`engine_bestmove` returned false), `some (score, lan)` a
successful one. -/
abbrev TimedOracle := Nat → Option (Int × String)

/-- Modelled from the spec: the time-controlled `game_play` declared in
`src/src/game.h` (`int game_play(Game*, const GameOptions*, const Engine[2], ...)`,
with `STATE_TIME_LOSS` among its outcomes) is not implemented under `src/` —
`src/game.c`'s `game_play` predates time control and calls a two-argument
`engine_bestmove` that `src/engine.c` no longer defines. Following spec §4.2
main-loop step 4, "If the request times out: set `TIME_LOSS` and exit", this
loop extends `gamePlayGo` with exactly that branch: when the best-move
request for the ply times out, store `TIME_LOSS` and exit the loop;
everything else is the `src/game.c` loop unchanged. -/
def gamePlayTimedGo (cm : ChessModule) (go : GameOptions) (oracle : TimedOracle) :
    Nat → GPState → Option Game
  | 0, _ => none
  | fuel + 1, st =>
    let hist := match st.played with
      | none => st.hist
      | some m => st.hist ++ [cm.posMove (posAt st.hist (st.hist.length - 1)) m]
    let ply := hist.length - 1
    let pos := posAt hist ply
    let r := game_result cm hist ply
    if r ≠ RESULT_NONE then some ⟨hist, ply, r⟩
    else
      match oracle ply with
      | none => some ⟨hist, ply, RESULT_TIME_LOSS⟩
      | some (score, lan) =>
        let played := cm.lanToMove pos lan go.chess960
        if illegal_move played (cm.genAllMoves pos) then
          some ⟨hist, ply, RESULT_ILLEGAL_MOVE⟩
        else
          match adjudicate go (ply % 2) score st.drawPlyCount st.resignCnt with
          | (some res, _, _) => some ⟨hist, ply, res⟩
          | (none, d2, rc2) => gamePlayTimedGo cm go oracle fuel ⟨hist, some played, d2, rc2⟩

/-! ### Claim-side (specification) definitions -/

/-- Spec side of C2: the termination priority chain exactly as the claim
enumerates it, with every guard spelled out (empty legal-move list first,
then the 50-move rule, then insufficient material, then the threefold scan,
otherwise `NONE`). -/
def game_result_spec (cm : ChessModule) (hist : List Position) (ply : Nat) : Result :=
  let pos := posAt hist ply
  if cm.genAllMoves pos = [] ∧ pos.checkers then RESULT_CHECKMATE
  else if cm.genAllMoves pos = [] ∧ ¬pos.checkers then RESULT_STALEMATE
  else if cm.genAllMoves pos ≠ [] ∧ pos.rule50 ≥ 100 then RESULT_FIFTY_MOVES
  else if cm.genAllMoves pos ≠ [] ∧ pos.rule50 < 100 ∧ cm.insufficientMaterial pos then
    RESULT_INSUFFICIENT_MATERIAL
  else if cm.genAllMoves pos ≠ [] ∧ pos.rule50 < 100 ∧ ¬cm.insufficientMaterial pos ∧
      repScan hist ply pos.rule50 pos.key then RESULT_THREEFOLD
  else RESULT_NONE

/-- Spec side of C6: the number of earlier same-side-to-move positions, at
even distances `i` scanned back from the current ply, within both the 50-move
counter and the available history, whose repetition key equals the current
key. Distances enumerate 4, 6, 8, … (a repetition of the current position two
plies back is impossible in chess — each side has moved exactly once — so the
scan of the claim starts at distance 4 as the source does); the range
`4, 6, …, 4 + 2·ply` safely covers the `i ≤ min(rule50, ply)` bound. -/
def repCountSpec (hist : List Position) (ply rule50 key : Nat) : Nat :=
  ((List.range' 4 (ply + 1) 2).filter
    (fun i => i ≤ rule50 ∧ i ≤ ply ∧ (posAt hist (ply - i)).key = key)).length

/-- A line whose first `str_tok` token is `bestmove` and which has a second
token (the success shape of the main loop of `engine_bestmove`). -/
def isBestmoveTok (l : String) : Bool :=
  decide ((tok l).head? = some "bestmove" ∧ 2 ≤ (tok l).length)

/-- Milliseconds elapsed while reading the first `k` lines. -/
def costTake (lines : List TimedLine) (k : Nat) : Nat :=
  ((lines.take k).map Prod.snd).foldr (· + ·) 0

/-- The text of the `k`-th input line. -/
def lineAt (lines : List TimedLine) (k : Nat) : String :=
  (lines.getD k ("", 0)).1

/-- Spec side of C3 (success case): some line `k` is a well-formed `bestmove`
line, no earlier line is, and the budget is still non-negative at the loop
check made before reading line `k` (i.e. the time spent reading lines
`0..k-1` does not exceed the budget). -/
def bmSuccSpec (lines : List TimedLine) (t : Int) : Prop :=
  ∃ k, k < lines.length ∧ isBestmoveTok (lineAt lines k) ∧
    (∀ j, j < k → ¬ isBestmoveTok (lineAt lines j)) ∧
    (costTake lines k : Int) ≤ t

/-- Spec side of C8: the command string as the claim spells it out —
`position fen ` + FEN of `positions[p0]`, then, exactly when `p0 < ply`,
` moves` followed by one ` `-prefixed LAN token per move from `p0+1` to
`ply`, each linearized against its predecessor with the `chess960` flag. -/
def uciCmdSpec (cm : ChessModule) (hist : List Position) (ply : Nat)
    (chess960 : Bool) : String :=
  let p0 := ply - (posAt hist ply).rule50
  "position fen " ++ cm.posGet (posAt hist p0) ++
    (if p0 < ply then
      " moves" ++ String.join ((List.range' (p0 + 1) (ply - p0)).map
        (fun p => " " ++ cm.moveToLan (posAt hist (p - 1)) (posAt hist p).lastMove chess960))
    else "")

/-- A raw line that carries a `score` sub-record the driver would parse: its
first token is `info` and `score` occurs among its tokens (the hypothesis of
C10). -/
def hasScoreRecord (l : String) : Bool :=
  match tok l with
  | "info" :: ws => ws.contains "score"
  | _ => false

end CChessCli

namespace CChessCli

/-! ### Helper lemmas -/

theorem strAppendAssoc (a b c : String) : a ++ b ++ c = a ++ (b ++ c) := by
  apply String.ext
  simp [String.data_append, List.append_assoc]

theorem strJoinCons (a : String) (l : List String) :
    String.join (a :: l) = a ++ String.join l := by
  apply String.ext
  simp [String.data_join, String.data_append]

theorem foldlCatJoin (f : Nat → String) :
    ∀ (l : List Nat) (acc : String),
      l.foldl (fun a p => a ++ " " ++ f p) acc =
        acc ++ String.join (l.map (fun p => " " ++ f p)) := by
  intro l
  induction l with
  | nil => intro acc; simp [String.join]
  | cons p ps ih =>
    intro acc
    simp only [List.foldl_cons, List.map_cons, ih, strJoinCons]
    simp [strAppendAssoc]

/-- Sample position with White to move. -/
def posW : Position := ⟨0, 0, false, 0, 0, 1⟩

/-- Sample position with Black to move. -/
def posB : Position := ⟨1, 0, false, 0, 0, 1⟩

/-! ### Claim theorems -/

/-- C2: `game_result` applies the termination checks in exactly the claimed
priority order — an empty legal-move list yields `CHECKMATE` when in check
and `STALEMATE` otherwise; then a 50-move counter of at least 100 yields
`FIFTY_MOVES`; then insufficient material yields `INSUFFICIENT_MATERIAL`;
then the threefold-repetition scan; otherwise `NONE`. -/
theorem game_result_priority_order (cm : ChessModule) (hist : List Position) (ply : Nat) :
    game_result cm hist ply = game_result_spec cm hist ply := by
  simp only [game_result, game_result_spec]
  split_ifs <;> simp_all

/-- C7 (code divergence on `TIME_LOSS`): `game_decode_result` maps every
result tag to the claimed (wire result, reason) pair — including the
loser-is-side-to-move tags for both turn values — except `TIME_LOSS`, for
which game.c has no branch and falls into `assert(false)` (modelled `none`),
evaluated here at concrete games for both sides to move. -/
theorem game_decode_result_time_loss_gap :
    game_decode_result ⟨[posW], 0, RESULT_NONE⟩ = some ("*", "unterminated") ∧
    game_decode_result ⟨[posW], 0, RESULT_CHECKMATE⟩ = some ("0-1", "checkmate") ∧
    game_decode_result ⟨[posB], 0, RESULT_CHECKMATE⟩ = some ("1-0", "checkmate") ∧
    game_decode_result ⟨[posW], 0, RESULT_STALEMATE⟩ = some ("1/2-1/2", "stalemate") ∧
    game_decode_result ⟨[posW], 0, RESULT_THREEFOLD⟩ = some ("1/2-1/2", "3 repetitions") ∧
    game_decode_result ⟨[posW], 0, RESULT_FIFTY_MOVES⟩ = some ("1/2-1/2", "50 move rule") ∧
    game_decode_result ⟨[posW], 0, RESULT_INSUFFICIENT_MATERIAL⟩ =
      some ("1/2-1/2", "insufficient material") ∧
    game_decode_result ⟨[posW], 0, RESULT_DRAW_ADJUDICATION⟩ =
      some ("1/2-1/2", "draw by adjudication") ∧
    game_decode_result ⟨[posW], 0, RESULT_ILLEGAL_MOVE⟩ = some ("0-1", "illegal move") ∧
    game_decode_result ⟨[posB], 0, RESULT_ILLEGAL_MOVE⟩ = some ("1-0", "illegal move") ∧
    game_decode_result ⟨[posW], 0, RESULT_RESIGN⟩ = some ("0-1", "white resigns") ∧
    game_decode_result ⟨[posB], 0, RESULT_RESIGN⟩ = some ("1-0", "black resigns") ∧
    game_decode_result ⟨[posW], 0, RESULT_TIME_LOSS⟩ = none ∧
    game_decode_result ⟨[posB], 0, RESULT_TIME_LOSS⟩ = none := by
  decide

/-- C8: `uci_position_command` builds exactly the string the claim describes:
`position fen ` + FEN of `positions[p0]` with `p0 = max(ply − rule50, 0)`,
and, exactly when `p0 < ply`, ` moves` followed by one space-separated LAN
token per move from `p0+1` through `ply`, each linearized against its
predecessor position with the `chess960` flag. -/
theorem uci_position_command_builds_spec (cm : ChessModule) (hist : List Position)
    (ply : Nat) (chess960 : Bool) :
    uci_position_command cm hist ply chess960 = uciCmdSpec cm hist ply chess960 := by
  unfold uci_position_command uciCmdSpec uciMovesFold
  by_cases h : ply - (posAt hist ply).rule50 < ply
  · simp only [h, if_pos, foldlCatJoin]
    rw [strAppendAssoc]
  · simp [h, String.append_empty]

end CChessCli

namespace CChessCli

/-- Auxiliary for C5: a token list in which `score` does not occur is
dropped entirely by the scan-for-`score` loop. -/
theorem dropWhileScoreAppend (pre : List String) (h : ¬ pre.contains "score") (l : List String) :
    (pre ++ "score" :: l).dropWhile (fun t => t ≠ "score") = "score" :: l := by
  induction pre with
  | nil => simp [List.dropWhile]
  | cons a as ih =>
    simp only [List.contains_cons, Bool.or_eq_true, not_or] at h
    have ha : a ≠ "score" := by
      intro hEq; exact absurd (by simp [hEq]) h.1
    simp only [List.cons_append, List.dropWhile_cons]
    simp only [ne_eq, ha, not_false_eq_true, decide_True, if_true]
    exact ih (by simpa using h.2)

/-- C5: when an `info` line carries `score mate N` (first `score` sub-record),
`engine_bestmove`'s score parser yields `INT_MIN` when `N` is negative and
`INT_MAX` otherwise; and with a non-negative `resignScore`, a score of
`INT_MAX` (the side to move reporting a forced mate in its favor) never
satisfies the resign condition `score <= -resignScore`, so `game_play`'s
adjudication never yields `RESULT_RESIGN` on that ply. -/
theorem mate_score_sentinels_block_resign :
    (∀ (pre : List String) (v : String) (l : List String) (score : Int),
      ¬ pre.contains "score" →
      infoScore (pre ++ "score" :: "mate" :: v :: l) score =
        some (if atoi v < 0 then intMin else intMax)) ∧
    (∀ (go : GameOptions) (turn : Nat) (d : Int) (rc : Int × Int),
      0 ≤ go.resignScore →
      (adjudicate go turn intMax d rc).1 ≠ some RESULT_RESIGN) := by
  constructor
  · intro pre v l score hpre
    unfold infoScore
    rw [dropWhileScoreAppend pre hpre]
    simp
  · intro go turn d rc hrs
    have hscore : ¬ (intMax ≤ -go.resignScore) := by
      unfold intMax; omega
    unfold adjudicate resignStep
    split_ifs <;> simp_all
    all_goals (split <;> simp_all)

/-- Witness for C5 at concrete inputs: the `mate -3` and `mate 2` parses and
a concrete adjudication state. -/
theorem mate_score_sentinels_block_resign_witness :
    infoScore (["depth", "9"] ++ "score" :: "mate" :: "-3" :: ["pv"]) 7 = some intMin ∧
    (adjudicate ⟨false, 0, 0, 600, 3⟩ 0 intMax 0 (2, 0)).1 ≠ some RESULT_RESIGN := by
  constructor
  · have h := mate_score_sentinels_block_resign.1 ["depth", "9"] "-3" ["pv"] 7 (by decide)
    rw [h]
    decide
  · exact mate_score_sentinels_block_resign.2 ⟨false, 0, 0, 600, 3⟩ 0 0 (2, 0) (by decide)

end CChessCli

namespace CChessCli

/-- Auxiliary: an `info` line with no `score` token leaves the score
unchanged. -/
theorem infoScoreNoScore (ws : List String) (s : Int)
    (h : ws.contains "score" = false) : infoScore ws s = some s := by
  unfold infoScore
  have hnm : "score" ∉ ws := by simpa using h
  have hd : ws.dropWhile (fun t => t ≠ "score") = [] := by
    rw [List.dropWhile_eq_nil_iff]
    intro x hx
    simp only [ne_eq, decide_eq_true_eq]
    intro hEq
    subst hEq
    exact hnm hx
  rw [hd]

/-- Auxiliary for C10: the main loop of `engine_bestmove` threads the score
accumulator unchanged when no consumed line carries a `score` sub-record. -/
theorem bmMainScoreInv : ∀ (lines : List TimedLine) (t s : Int) (out : MainOut),
    (∀ l ∈ lines, hasScoreRecord l.1 = false) →
    bmMain lines t s = some out → out.score = s := by
  intro lines
  induction lines with
  | nil =>
    intro t s out _ hb
    rw [bmMain] at hb
    split at hb
    · exact (Option.some_inj.mp hb) ▸ rfl
    · exact absurd hb (by simp)
  | cons hd tl ih =>
    intro t s out hns hb
    rw [bmMain] at hb
    split at hb
    · injection hb with h
      rw [← h]
    · dsimp only at hb
      split at hb
      · exact ih _ _ _ (fun l hl => hns l (List.mem_cons_of_mem _ hl)) hb
      · rename_i w ws htok
        have hw : hasScoreRecord hd.1 = false := hns hd (List.mem_cons_self _ _)
        split_ifs at hb with hinfo hbm
        · subst hinfo
          unfold hasScoreRecord at hw
          rw [htok] at hw
          rw [infoScoreNoScore ws s (by simpa using hw)] at hb
          exact ih _ _ _ (fun l hl => hns l (List.mem_cons_of_mem _ hl)) hb
        · split at hb
          · injection hb with h
            rw [← h]
          · exact ih _ _ _ (fun l hl => hns l (List.mem_cons_of_mem _ hl)) hb
        · exact ih _ _ _ (fun l hl => hns l (List.mem_cons_of_mem _ hl)) hb

/-- C10: `engine_bestmove` initializes the score out-parameter to 0, so on any
call that returns without having read an `info` line carrying a `score`
sub-record the score is 0; and in `game_play`'s adjudication, with
`drawCount > 0` (and a non-negative `drawScore`) such a scoreless ply
satisfies `|score| <= drawScore` and advances the draw counter by one. -/
theorem scoreless_ply_score_zero_advances_draw :
    (∀ (lines : List TimedLine) (t : Int) (r : BMOut),
      (∀ l ∈ lines, hasScoreRecord l.1 = false) →
      engine_bestmove lines t = some r → r.score = 0) ∧
    (∀ (go : GameOptions) (turn : Nat) (d : Int) (rc : Int × Int),
      go.drawCount ≠ 0 → 0 ≤ go.drawScore →
      |(0 : Int)| ≤ go.drawScore ∧ (adjudicate go turn 0 d rc).2.1 = d + 1) := by
  constructor
  · intro lines t r hns hb
    unfold engine_bestmove at hb
    cases hm : bmMain lines t 0 with
    | none => rw [hm] at hb; exact absurd hb (by simp)
    | some out =>
      rw [hm] at hb
      dsimp only at hb
      have hsc : out.score = 0 := bmMainScoreInv lines t 0 out hns hm
      cases hbest : out.best with
      | some m =>
        rw [hbest] at hb
        cases hb
        simpa using hsc
      | none =>
        rw [hbest] at hb
        cases hdr : bmDrain out.rest with
        | none => rw [hdr] at hb; exact absurd hb (by simp)
        | some rest2 =>
          rw [hdr] at hb
          cases hb
          simpa using hsc
  · intro go turn d rc hdc hds
    refine ⟨by simpa using hds, ?_⟩
    unfold adjudicate
    have : go.drawCount ≠ 0 ∧ |(0 : Int)| ≤ go.drawScore := ⟨hdc, by simpa using hds⟩
    rw [if_pos this]
    dsimp only
    split
    · rfl
    · unfold resignStep
      split_ifs <;> first | rfl | (dsimp only; split <;> rfl)

/-- Witness for C10: a scoreless exchange returns score 0, and a concrete
adjudication step advances the draw counter from 5 to 6. -/
theorem scoreless_ply_score_zero_advances_draw_witness :
    (⟨true, 0, some "e2e4", 50, [], []⟩ : BMOut).score = 0 ∧
    |(0 : Int)| ≤ (10 : Int) ∧
    (adjudicate ⟨false, 10, 3, 0, 0⟩ 0 0 5 (0, 0)).2.1 = 5 + 1 := by
  refine ⟨?_, ?_⟩
  · exact scoreless_ply_score_zero_advances_draw.1
      [("info depth 3", 0), ("bestmove e2e4", 0)] 50
      ⟨true, 0, some "e2e4", 50, [], []⟩ (by decide) rfl
  · simpa using scoreless_ply_score_zero_advances_draw.2 ⟨false, 10, 3, 0, 0⟩ 0 5 (0, 0)
      (by decide) (by decide)

end CChessCli

namespace CChessCli

/-- The concrete chess module used by witnesses: one legal move `7`
(LAN `a1a2`), never insufficient material, position application bumps the
rule50 counter and the key. -/
def cmW : ChessModule :=
  ⟨fun _ => [7], fun _ => false, fun p => if p.key = 0 then "FEN0" else "FENk",
   fun _ m _ => if m = 7 then "a1a2" else "zz",
   fun _ l _ => if l = "a1a2" then 7 else 99,
   fun p _ => { p with rule50 := p.rule50 + 1, key := p.key + 1 }⟩

/-- A chess module with no legal moves anywhere (every game is over at once). -/
def cmStuck : ChessModule :=
  ⟨fun _ => [], fun _ => false, fun _ => "FEN0", fun _ _ _ => "a1a2",
   fun _ _ _ => 7, fun p _ => p⟩

/-- C1 (modelled from the spec; the time-controlled `game_play` declared in
`src/src/game.h` is not implemented under `src/`): whenever the position
reached at the current iteration is not terminal by chess rules and the
best-move request for the side to move times out, the main loop stores
`TIME_LOSS` as the game result and exits immediately — the returned game ends
at that very ply with `RESULT_TIME_LOSS`, whatever fuel remains. -/
theorem timeout_sets_time_loss (cm : ChessModule) (go : GameOptions)
    (oracle : TimedOracle) (fuel : Nat) (st : GPState) (hist : List Position)
    (hh : hist = (match st.played with
      | none => st.hist
      | some m => st.hist ++ [cm.posMove (posAt st.hist (st.hist.length - 1)) m]))
    (hres : game_result cm hist (hist.length - 1) = RESULT_NONE)
    (hto : oracle (hist.length - 1) = none) :
    gamePlayTimedGo cm go oracle (fuel + 1) st =
      some ⟨hist, hist.length - 1, RESULT_TIME_LOSS⟩ := by
  rw [gamePlayTimedGo]
  rw [← hh]
  simp [hres, hto]

/-- Witness for C1: a fresh one-move game whose engine times out at ply 0. -/
theorem timeout_sets_time_loss_witness :
    gamePlayTimedGo cmW ⟨false, 0, 0, 0, 0⟩ (fun _ => none) 1 ⟨[posW], none, 0, (0, 0)⟩ =
      some ⟨[posW], 0, RESULT_TIME_LOSS⟩ := by
  exact timeout_sets_time_loss cmW ⟨false, 0, 0, 0, 0⟩ (fun _ => none) 0
    ⟨[posW], none, 0, (0, 0)⟩ [posW] rfl (by decide) rfl

/-- Auxiliary: a result fired by the adjudication step is never
`RESULT_NONE`. -/
theorem adjudicateFired (go : GameOptions) (turn : Nat) (score : Int) (d : Int)
    (rc : Int × Int) :
    (adjudicate go turn score d rc).1 = none ∨
    (adjudicate go turn score d rc).1 = some RESULT_DRAW_ADJUDICATION ∨
    (adjudicate go turn score d rc).1 = some RESULT_RESIGN := by
  unfold adjudicate resignStep
  split_ifs <;> simp_all <;> (try (split <;> simp_all)) <;> (try (split <;> simp_all))

/-- Auxiliary: a result fired by the adjudication step is never
`RESULT_NONE`. -/
theorem adjudicateNotNone (go : GameOptions) (turn : Nat) (score : Int) (d : Int)
    (rc : Int × Int) (res : Result) :
    (adjudicate go turn score d rc).1 = some res → res ≠ RESULT_NONE := by
  intro h
  rcases adjudicateFired go turn score d rc with h1 | h1 | h1 <;> rw [h1] at h <;>
    simp_all <;> subst h <;> simp

/-- Auxiliary for C9: the invariant of the `game_play` main loop — starting
from a non-empty history, whenever the loop returns a game, its result tag is
set and its history holds exactly `ply + 1` positions. -/
theorem gamePlayGoPost : ∀ (fuel : Nat) (cm : ChessModule) (go : GameOptions)
    (oracle : Oracle) (st : GPState), st.hist ≠ [] →
    ∀ g, gamePlayGo cm go oracle fuel st = some g →
    g.result ≠ RESULT_NONE ∧ g.hist.length = g.ply + 1 := by
  intro fuel
  induction fuel with
  | zero => intro cm go oracle st _ g hg; exact absurd hg (by simp [gamePlayGo])
  | succ fuel ih =>
    intro cm go oracle st hne g hg
    rw [gamePlayGo] at hg
    set hist := (match st.played with
      | none => st.hist
      | some m => st.hist ++ [cm.posMove (posAt st.hist (st.hist.length - 1)) m]) with hhist
    have hlen : hist ≠ [] := by
      rw [hhist]
      cases st.played <;> simp_all
    have hlen1 : 1 ≤ hist.length := by
      cases hshape : hist with
      | nil => exact absurd hshape hlen
      | cons a l => simp [hshape]
    dsimp only at hg
    split at hg
    · injection hg with h
      rw [← h]
      constructor
      · simpa using ‹¬ game_result cm hist (hist.length - 1) = RESULT_NONE›
      · simp
        omega
    · split at hg
      · injection hg with h
        rw [← h]
        exact ⟨by simp, by simp; omega⟩
      · split at hg
        · rename_i res d2 rc2 hadj
          injection hg with h
          rw [← h]
          refine ⟨?_, by simp; omega⟩
          exact adjudicateNotNone go _ _ st.drawPlyCount st.resignCnt res (by rw [hadj])
        · exact ih cm go oracle _ hlen g hg

/-- C9: when `game_play` returns, the game's result tag is not `NONE` and the
position sequence holds exactly `ply + 1` positions; the loop body appends a
position only before the result test and exits the loop the moment a result
is stored, so no position is appended after the tag becomes non-`NONE` —
which is what pins `positions.length` to `ply + 1` at exit. -/
theorem game_play_terminal_invariant (cm : ChessModule) (go : GameOptions)
    (oracle : Oracle) (pos0 : Position) (fuel : Nat) (g : Game)
    (hg : game_play cm go oracle pos0 fuel = some g) :
    g.result ≠ RESULT_NONE ∧ g.hist.length = g.ply + 1 := by
  exact gamePlayGoPost fuel cm go oracle ⟨[pos0], none, 0, (0, 0)⟩ (by simp) g hg

/-- Witness for C9: a game over immediately (stalemate at ply 0). -/
theorem game_play_terminal_invariant_witness :
    (RESULT_STALEMATE ≠ RESULT_NONE) ∧ ([posW] : List Position).length = 0 + 1 := by
  exact game_play_terminal_invariant cmStuck ⟨false, 0, 0, 0, 0⟩ (fun _ => (0, "a1a2"))
    posW 1 ⟨[posW], 0, RESULT_STALEMATE⟩ (by decide)

end CChessCli

namespace CChessCli

/-- Auxiliary for C6: the same loop as `repScanGo` but counting every key
match in the scanned range instead of stopping at the second one. -/
def repCountGo (hist : List Position) (ply rule50 key : Nat) : Nat → Nat → Nat
  | 0, _ => 0
  | fuel + 1, i =>
    if i ≤ rule50 ∧ i ≤ ply then
      (if (posAt hist (ply - i)).key = key then 1 else 0) +
        repCountGo hist ply rule50 key fuel (i + 2)
    else 0

/-- Auxiliary for C6: the early-exit scan succeeds exactly when the total
match count reaches `3 - reps`. -/
theorem repScanGoCount (hist : List Position) (ply rule50 key : Nat) :
    ∀ (fuel i reps : Nat), reps ≤ 2 →
      (repScanGo hist ply rule50 key fuel i reps = true ↔
        3 ≤ reps + repCountGo hist ply rule50 key fuel i) := by
  intro fuel
  induction fuel with
  | zero => intro i reps hr; simp [repScanGo, repCountGo]; omega
  | succ fuel ih =>
    intro i reps hr
    rw [repScanGo, repCountGo]
    by_cases hb : i ≤ rule50 ∧ i ≤ ply
    · rw [if_pos hb, if_pos hb]
      by_cases hk : (posAt hist (ply - i)).key = key
      · rw [if_pos hk, if_pos hk]
        by_cases h3 : reps + 1 ≥ 3
        · rw [if_pos h3]
          simp only [true_iff]
          have := repCountGo hist ply rule50 key fuel (i + 2)
          omega
        · rw [if_neg h3]
          rw [ih (i + 2) (reps + 1) (by omega)]
          omega
      · rw [if_neg hk, if_neg hk]
        rw [ih (i + 2) reps hr]
        omega
    · rw [if_neg hb, if_neg hb]
      simp
      omega

/-- Auxiliary for C6: the loop count equals the number of matching distances
in the arithmetic progression `i, i+2, …` (the loop may stop at the first
out-of-bounds distance, but every later distance is out of bounds too). -/
theorem repCountGoSpec (hist : List Position) (ply rule50 key : Nat) :
    ∀ (fuel i : Nat),
      repCountGo hist ply rule50 key fuel i =
        ((List.range' i fuel 2).filter
          (fun j => j ≤ rule50 ∧ j ≤ ply ∧ (posAt hist (ply - j)).key = key)).length := by
  intro fuel
  induction fuel with
  | zero => intro i; simp [repCountGo]
  | succ fuel ih =>
    intro i
    rw [repCountGo]
    rw [List.range'_succ]
    by_cases hb : i ≤ rule50 ∧ i ≤ ply
    · rw [if_pos hb]
      rw [List.filter_cons]
      by_cases hk : (posAt hist (ply - i)).key = key
      · have : (decide (i ≤ rule50 ∧ i ≤ ply ∧ (posAt hist (ply - i)).key = key)) = true := by
          simp [hb.1, hb.2, hk]
        rw [if_pos hk, this]
        simp [ih]
        omega
      · have : (decide (i ≤ rule50 ∧ i ≤ ply ∧ (posAt hist (ply - i)).key = key)) = false := by
          simp [hk]
        rw [if_neg hk, this]
        simp [ih]
    · rw [if_neg hb]
      have : ∀ j ∈ List.range' i (fuel + 1) 2,
          ¬ (j ≤ rule50 ∧ j ≤ ply ∧ (posAt hist (ply - j)).key = key) := by
        intro j hj
        obtain ⟨k, _, rfl⟩ := List.mem_range'.mp hj
        rintro ⟨hj1, hj2, -⟩
        exact hb ⟨by omega, by omega⟩
      rw [← List.range'_succ]
      rw [List.filter_eq_nil_iff.mpr (by simpa using this)]
      rfl

/-- C6: for a position that is not terminal by the earlier checks (non-empty
move list, 50-move counter below 100, sufficient material), `game_result`
returns `THREEFOLD` exactly when the backward scan from the current ply in
steps of 2 plies (same side to move; the nearest possible recurrence is 4
plies back), bounded by both the 50-move counter and the available history,
finds at least two earlier positions whose repetition key equals the current
position's key — a third occurrence in total. -/
theorem game_result_threefold_iff (cm : ChessModule) (hist : List Position) (ply : Nat)
    (h1 : cm.genAllMoves (posAt hist ply) ≠ [])
    (h2 : (posAt hist ply).rule50 < 100)
    (h3 : cm.insufficientMaterial (posAt hist ply) = false) :
    game_result cm hist ply = RESULT_THREEFOLD ↔
      2 ≤ repCountSpec hist ply (posAt hist ply).rule50 (posAt hist ply).key := by
  have hscan : repScan hist ply (posAt hist ply).rule50 (posAt hist ply).key = true ↔
      2 ≤ repCountSpec hist ply (posAt hist ply).rule50 (posAt hist ply).key := by
    unfold repScan repCountSpec
    rw [repScanGoCount hist ply _ _ (ply + 1) 4 1 (by omega)]
    rw [repCountGoSpec]
    omega
  unfold game_result
  rw [if_neg h1, if_neg (by omega), if_neg (by simp [h3])]
  by_cases hs : repScan hist ply (posAt hist ply).rule50 (posAt hist ply).key
  · rw [if_pos hs]
    exact iff_of_true rfl (hscan.mp hs)
  · rw [if_neg hs]
    constructor
    · intro h
      exact absurd h (by decide)
    · intro hc
      exact absurd (hscan.mpr hc) hs

/-- Concrete nine-ply history in which the current position's key recurs at
distances 4, 6 and 8 (all within the 50-move counter). -/
def histRep : List Position := List.replicate 9 ⟨0, 8, false, 5, 0, 1⟩

/-- Witness for C6: the repeated history is adjudicated `THREEFOLD` and the
claim-side count agrees. -/
theorem game_result_threefold_iff_witness :
    (game_result cmW histRep 8 = RESULT_THREEFOLD ↔
      2 ≤ repCountSpec histRep 8 (posAt histRep 8).rule50 (posAt histRep 8).key) ∧
    game_result cmW histRep 8 = RESULT_THREEFOLD := by
  refine ⟨?_, by decide⟩
  exact game_result_threefold_iff cmW histRep 8 (by decide) (by decide) (by decide)

end CChessCli

namespace CChessCli

/-- Auxiliary for C4: the main loop only consumes a prefix of the input. -/
theorem bmMainSuffix : ∀ (lines : List TimedLine) (t s : Int) (out : MainOut),
    bmMain lines t s = some out → ∃ consumed, lines = consumed ++ out.rest := by
  intro lines
  induction lines with
  | nil =>
    intro t s out hb
    rw [bmMain] at hb
    split at hb
    · injection hb with h
      exact ⟨[], by rw [← h]; rfl⟩
    · exact absurd hb (by simp)
  | cons hd tl ih =>
    intro t s out hb
    rw [bmMain] at hb
    split at hb
    · injection hb with h
      exact ⟨[], by rw [← h]; rfl⟩
    · dsimp only at hb
      split at hb
      · obtain ⟨pre, hpre⟩ := ih _ _ _ hb
        exact ⟨hd :: pre, by simp [hpre]⟩
      · split_ifs at hb with hinfo hbm
        · split at hb
          · exact absurd hb (by simp)
          · obtain ⟨pre, hpre⟩ := ih _ _ _ hb
            exact ⟨hd :: pre, by simp [hpre]⟩
        · split at hb
          · injection hb with h
            exact ⟨[hd], by rw [← h]; rfl⟩
          · obtain ⟨pre, hpre⟩ := ih _ _ _ hb
            exact ⟨hd :: pre, by simp [hpre]⟩
        · obtain ⟨pre, hpre⟩ := ih _ _ _ hb
          exact ⟨hd :: pre, by simp [hpre]⟩

/-- Auxiliary for C4: when the drain returns, the consumed segment is a run
of non-`bestmove `-prefixed lines closed by one `bestmove `-prefixed line. -/
theorem bmDrainSpec : ∀ (lines rest2 : List TimedLine),
    bmDrain lines = some rest2 →
    ∃ pre bm, lines = pre ++ bm :: rest2 ∧
      (∀ p ∈ pre, hasBestmoveSpace p.1 = false) ∧ hasBestmoveSpace bm.1 = true := by
  intro lines
  induction lines with
  | nil => intro rest2 hd; exact absurd hd (by simp [bmDrain])
  | cons hd tl ih =>
    intro rest2 hdr
    rw [bmDrain] at hdr
    split_ifs at hdr with hpre
    · injection hdr with h
      exact ⟨[], hd, by simp [h], by simp, hpre⟩
    · obtain ⟨pre, bm, heq, hall, hbm⟩ := ih rest2 hdr
      exact ⟨hd :: pre, bm, by simp [heq],
        fun p hp => by
          rcases List.mem_cons.mp hp with h | h
          · rw [h]; simpa using hpre
          · exact hall p h,
        hbm⟩

/-- C4: whenever `engine_bestmove` reaches its timeout path, it writes
exactly the line `stop` and, before returning, discards input lines up to and
including one prefixed `bestmove ` — so after a timeout return the driver has
already consumed a best-move line: the unread input `r.rest` starts after a
`bestmove `-prefixed line, and every line discarded between the main loop and
that line lacked the prefix. Hence a subsequent `go` is never issued with the
prior search still pending. -/
theorem timeout_writes_stop_then_drains (lines : List TimedLine) (t : Int) (r : BMOut)
    (h : engine_bestmove lines t = some r) (hok : r.ok = false) :
    r.writes = ["stop"] ∧
    ∃ consumed pre bm, lines = consumed ++ (pre ++ bm :: r.rest) ∧
      (∀ p ∈ pre, hasBestmoveSpace p.1 = false) ∧ hasBestmoveSpace bm.1 = true := by
  unfold engine_bestmove at h
  cases hm : bmMain lines t 0 with
  | none => rw [hm] at h; exact absurd h (by simp)
  | some out =>
    rw [hm] at h
    dsimp only at h
    cases hbest : out.best with
    | some m =>
      rw [hbest] at h
      injection h with h2
      rw [← h2] at hok
      exact absurd hok (by simp)
    | none =>
      rw [hbest] at h
      cases hdr : bmDrain out.rest with
      | none => rw [hdr] at h; exact absurd h (by simp)
      | some rest2 =>
        rw [hdr] at h
        injection h with h2
        obtain ⟨consumed, hcons⟩ := bmMainSuffix lines t 0 out hm
        obtain ⟨pre, bm, heq, hall, hbm⟩ := bmDrainSpec out.rest rest2 hdr
        refine ⟨by rw [← h2], consumed, pre, bm, ?_, hall, hbm⟩
        rw [← h2]
        rw [hcons, heq]

/-- Witness for C4: a budget of 100 ms exhausted by a 200 ms `info` line; the
drain discards one junk line and stops after the `bestmove ` line. -/
theorem timeout_writes_stop_then_drains_witness :
    (⟨false, 0, none, -100, [("tail", 0)], ["stop"]⟩ : BMOut).writes = ["stop"] ∧
    ∃ consumed pre bm,
      ([("info depth 1", 200), ("info junk", 0), ("bestmove a1a2", 0), ("tail", 0)] :
          List TimedLine) =
        consumed ++ (pre ++ bm :: (⟨false, 0, none, -100, [("tail", 0)], ["stop"]⟩ : BMOut).rest) ∧
      (∀ p ∈ pre, hasBestmoveSpace p.1 = false) ∧ hasBestmoveSpace bm.1 = true := by
  exact timeout_writes_stop_then_drains
    [("info depth 1", 200), ("info junk", 0), ("bestmove a1a2", 0), ("tail", 0)] 100
    ⟨false, 0, none, -100, [("tail", 0)], ["stop"]⟩ rfl rfl

end CChessCli

namespace CChessCli

/-- Auxiliary: reading zero lines costs nothing. -/
theorem costTakeZero (lines : List TimedLine) : costTake lines 0 = 0 := by
  simp [costTake]

/-- Auxiliary: cost of one more line. -/
theorem costTakeSucc (x : TimedLine) (xs : List TimedLine) (k : Nat) :
    costTake (x :: xs) (k + 1) = x.2 + costTake xs k := by
  simp [costTake]

/-- Auxiliary: shifting `lineAt` over a cons cell. -/
theorem lineAtSucc (x : TimedLine) (xs : List TimedLine) (k : Nat) :
    lineAt (x :: xs) (k + 1) = lineAt xs k := rfl

/-- Auxiliary: a successful run needs a non-negative budget (reading costs
are non-negative, so the budget at the decisive check is at most `t`). -/
theorem bmSuccSpecNonneg (lines : List TimedLine) (t : Int) (h : bmSuccSpec lines t) :
    0 ≤ t := by
  obtain ⟨k, -, -, -, hc⟩ := h
  have h0 : (0 : Int) ≤ (costTake lines k : Int) := Int.natCast_nonneg _
  omega

/-- Auxiliary for C3: consuming one non-`bestmove` line shifts the success
condition to the remaining lines with the budget charged for it. -/
theorem bmSuccSpecShift (l : String) (c : Nat) (rest : List TimedLine) (t : Int)
    (hl : isBestmoveTok l = false) :
    bmSuccSpec ((l, c) :: rest) t ↔ bmSuccSpec rest (t - c) := by
  constructor
  · rintro ⟨k, hk, hbm, hprev, hcost⟩
    cases k with
    | zero => rw [show lineAt ((l, c) :: rest) 0 = l from rfl, hl] at hbm; cases hbm
    | succ k =>
      refine ⟨k, by simpa using hk, by simpa [lineAtSucc] using hbm, ?_, ?_⟩
      · intro j hj
        have := hprev (j + 1) (by omega)
        simpa [lineAtSucc] using this
      · rw [costTakeSucc] at hcost
        push_cast at hcost ⊢
        omega
  · rintro ⟨k, hk, hbm, hprev, hcost⟩
    refine ⟨k + 1, by simpa using Nat.succ_lt_succ hk,
      by simpa [lineAtSucc] using hbm, ?_, ?_⟩
    · intro j hj
      cases j with
      | zero => rw [show lineAt ((l, c) :: rest) 0 = l from rfl, hl]; simp
      | succ j =>
        have := hprev j (by omega)
        simpa [lineAtSucc] using this
    · rw [costTakeSucc]
      push_cast at hcost ⊢
      omega

/-- Auxiliary for C3: the main loop finds a best move exactly when some
well-formed `bestmove` line is reached while the budget is still
non-negative at the check preceding its read. -/
theorem bmMainOkIff : ∀ (lines : List TimedLine) (t s : Int) (out : MainOut),
    bmMain lines t s = some out → (out.best.isSome = true ↔ bmSuccSpec lines t) := by
  intro lines
  induction lines with
  | nil =>
    intro t s out hb
    rw [bmMain] at hb
    split at hb
    · injection hb with h
      rw [← h]
      simp [bmSuccSpec]
    · exact absurd hb (by simp)
  | cons hd tl ih =>
    intro t s out hb
    rw [bmMain] at hb
    split at hb
    · rename_i ht
      injection hb with h
      rw [← h]
      constructor
      · intro hx; exact absurd hx (by simp)
      · intro hs; exact absurd (bmSuccSpecNonneg _ _ hs) (by omega)
    · rename_i ht
      dsimp only at hb
      split at hb
      · rename_i htok
        rw [ih _ _ _ hb]
        have hf : isBestmoveTok hd.1 = false := by simp [isBestmoveTok, htok]
        exact (bmSuccSpecShift hd.1 hd.2 tl t hf).symm
      · rename_i w ws htok
        split_ifs at hb with hinfo hbm
        · split at hb
          · exact absurd hb (by simp)
          · rename_i s2 hscore
            rw [ih _ _ _ hb]
            have hf : isBestmoveTok hd.1 = false := by
              subst hinfo
              simp [isBestmoveTok, htok]
            exact (bmSuccSpecShift hd.1 hd.2 tl t hf).symm
        · split at hb
          · rename_i m ms hws
            injection hb with h
            rw [← h]
            refine iff_of_true rfl ?_
            refine ⟨0, by simp, ?_, by intro j hj; omega, ?_⟩
            · rw [show lineAt (hd :: tl) 0 = hd.1 from rfl]
              simp [isBestmoveTok, htok, hbm]
            · rw [costTakeZero]
              omega
          · rw [ih _ _ _ hb]
            have hf : isBestmoveTok hd.1 = false := by
              simp [isBestmoveTok, htok]
            exact (bmSuccSpecShift hd.1 hd.2 tl t hf).symm
        · rw [ih _ _ _ hb]
          have hf : isBestmoveTok hd.1 = false := by
            simp [isBestmoveTok, htok, hbm]
          exact (bmSuccSpecShift hd.1 hd.2 tl t hf).symm

/-- The decisive line of a successful `engine_bestmove` call: line `k` is the
first line whose first token is `bestmove` with a second token, it is reached
with the budget still non-negative at the loop check preceding its read, and
the captured move is exactly that second whitespace-separated token. -/
def bmCaptureAt (lines : List TimedLine) (t : Int) (k : Nat) (best : Option String) : Prop :=
  k < lines.length ∧ isBestmoveTok (lineAt lines k) ∧
    (∀ j, j < k → ¬ isBestmoveTok (lineAt lines j)) ∧
    (costTake lines k : Int) ≤ t ∧ best = (tok (lineAt lines k)).get? 1

/-- Auxiliary for C3: the capture condition shifts over one consumed
non-`bestmove` line, the budget charged for its read. -/
theorem bmCaptureShift (l : String) (c : Nat) (rest : List TimedLine) (t : Int)
    (best : Option String) (hl : isBestmoveTok l = false) (k : Nat)
    (h : bmCaptureAt rest (t - c) k best) :
    bmCaptureAt ((l, c) :: rest) t (k + 1) best := by
  obtain ⟨hk, hbm, hprev, hcost, hget⟩ := h
  refine ⟨by simpa using Nat.succ_lt_succ hk, by simpa [lineAtSucc] using hbm, ?_, ?_,
    by simpa [lineAtSucc] using hget⟩
  · intro j hj
    cases j with
    | zero => rw [show lineAt ((l, c) :: rest) 0 = l from rfl, hl]; simp
    | succ j =>
      have := hprev j (by omega)
      simpa [lineAtSucc] using this
  · rw [costTakeSucc]
    push_cast at hcost ⊢
    omega

/-- Auxiliary for C3: when the main loop finds a best move, the move it
captured is the second token of the first well-formed `bestmove` line, read
within budget. -/
theorem bmMainCapture : ∀ (lines : List TimedLine) (t s : Int) (out : MainOut) (m : String),
    bmMain lines t s = some out → out.best = some m →
    ∃ k, bmCaptureAt lines t k (some m) := by
  intro lines
  induction lines with
  | nil =>
    intro t s out m hb hbest
    rw [bmMain] at hb
    split at hb
    · injection hb with h
      rw [← h] at hbest
      exact absurd hbest (by simp)
    · exact absurd hb (by simp)
  | cons hd tl ih =>
    intro t s out m hb hbest
    rw [bmMain] at hb
    split at hb
    · injection hb with h
      rw [← h] at hbest
      exact absurd hbest (by simp)
    · rename_i ht
      dsimp only at hb
      split at hb
      · rename_i htok
        have hf : isBestmoveTok hd.1 = false := by simp [isBestmoveTok, htok]
        obtain ⟨k, hk⟩ := ih _ _ _ m hb hbest
        exact ⟨k + 1, bmCaptureShift hd.1 hd.2 tl t (some m) hf k hk⟩
      · rename_i w ws htok
        split_ifs at hb with hinfo hbm
        · split at hb
          · exact absurd hb (by simp)
          · rename_i s2 hscore
            have hf : isBestmoveTok hd.1 = false := by
              subst hinfo
              simp [isBestmoveTok, htok]
            obtain ⟨k, hk⟩ := ih _ _ _ m hb hbest
            exact ⟨k + 1, bmCaptureShift hd.1 hd.2 tl t (some m) hf k hk⟩
        · split at hb
          · rename_i m2 ms hws
            injection hb with h
            rw [← h] at hbest
            have hm2 : ms = m := by simpa using hbest
            subst hm2
            refine ⟨0, by simp, ?_, by intro j hj; omega, ?_, ?_⟩
            · rw [show lineAt (hd :: tl) 0 = hd.1 from rfl]
              simp [isBestmoveTok, htok, hbm]
            · rw [costTakeZero]
              omega
            · rw [show lineAt (hd :: tl) 0 = hd.1 from rfl, htok]
              simp [List.get?]
          · have hf : isBestmoveTok hd.1 = false := by simp [isBestmoveTok, htok]
            obtain ⟨k, hk⟩ := ih _ _ _ m hb hbest
            exact ⟨k + 1, bmCaptureShift hd.1 hd.2 tl t (some m) hf k hk⟩
        · have hf : isBestmoveTok hd.1 = false := by simp [isBestmoveTok, htok, hbm]
          obtain ⟨k, hk⟩ := ih _ _ _ m hb hbest
          exact ⟨k + 1, bmCaptureShift hd.1 hd.2 tl t (some m) hf k hk⟩

/-- C3 (amended): `engine_bestmove` returns success exactly when a line whose
first token is `bestmove` with a second whitespace-separated token is read
while the budget is still non-negative at the loop check preceding the read
(so a budget of exactly zero still admits further reads, and the line whose
read drives the budget negative is itself still parsed); on success the move
out-parameter captures exactly that line's second whitespace-separated
token; it returns timeout precisely otherwise, i.e. when the budget is
strictly negative at a check before any such line has been read; and a line
whose first token is neither `info` nor `bestmove` is ignored — the main
loop consumes it, charges its read time, and continues unchanged. -/
theorem engine_bestmove_success_iff (lines : List TimedLine) (t : Int) (r : BMOut)
    (h : engine_bestmove lines t = some r) :
    (r.ok = true ↔ bmSuccSpec lines t) ∧
    (r.ok = true → ∃ k, bmCaptureAt lines t k r.best) ∧
    (∀ (l : String) (c : Nat) (rest : List TimedLine) (t2 s : Int),
      0 ≤ t2 → (tok l).head? ≠ some "info" → (tok l).head? ≠ some "bestmove" →
      bmMain ((l, c) :: rest) t2 s = bmMain rest (t2 - c) s) := by
  refine ⟨?_, ?_, ?_⟩
  · unfold engine_bestmove at h
    cases hm : bmMain lines t 0 with
    | none => rw [hm] at h; exact absurd h (by simp)
    | some out =>
      rw [hm] at h
      dsimp only at h
      have hiff := bmMainOkIff lines t 0 out hm
      cases hbest : out.best with
      | some m =>
        rw [hbest] at h
        injection h with h2
        rw [← h2]
        rw [hbest] at hiff
        simpa using hiff
      | none =>
        rw [hbest] at h
        cases hdr : bmDrain out.rest with
        | none => rw [hdr] at h; exact absurd h (by simp)
        | some rest2 =>
          rw [hdr] at h
          injection h with h2
          rw [← h2]
          rw [hbest] at hiff
          simpa using hiff
  · intro hok
    unfold engine_bestmove at h
    cases hm : bmMain lines t 0 with
    | none => rw [hm] at h; exact absurd h (by simp)
    | some out =>
      rw [hm] at h
      dsimp only at h
      cases hbest : out.best with
      | some m =>
        rw [hbest] at h
        injection h with h2
        obtain ⟨k, hk⟩ := bmMainCapture lines t 0 out m hm hbest
        refine ⟨k, ?_⟩
        rw [← h2]
        exact hk
      | none =>
        rw [hbest] at h
        cases hdr : bmDrain out.rest with
        | none => rw [hdr] at h; exact absurd h (by simp)
        | some rest2 =>
          rw [hdr] at h
          injection h with h2
          rw [← h2] at hok
          exact absurd hok (by simp)
  · intro l c rest t2 s h0 hni hnb
    conv_lhs => rw [bmMain]
    rw [if_neg (by omega)]
    dsimp only
    split
    · rfl
    · rename_i w ws heq
      have hw1 : w ≠ "info" := fun hEq => hni (by simp [heq, hEq])
      have hw2 : w ≠ "bestmove" := fun hEq => hnb (by simp [heq, hEq])
      rw [if_neg hw1, if_neg hw2]

/-- The input of the C3 counterexample: an `info` line whose read consumes
the whole budget, then an immediate well-formed `bestmove` line. -/
def exLines : List TimedLine := [("info depth 1", 100), ("bestmove e2e4", 0)]

/-- C3 counterexample: with a 100 ms budget, the budget falls to exactly zero
before any `bestmove` line has arrived (only line 0, an `info` line, has been
read, and it costs the full 100 ms) — the claim's "falls to or below zero
before such a line arrives ⇒ timeout" then mandates a timeout return — yet
`engine_bestmove` keeps reading at a budget of zero and returns success. -/
theorem engine_bestmove_timeout_at_zero_counterexample :
    ((100 : Int) - costTake exLines 1 ≤ 0) ∧
    (∀ j, j < 1 → ¬ isBestmoveTok (lineAt exLines j) = true) ∧
    isBestmoveTok (lineAt exLines 1) = true ∧
    (engine_bestmove exLines 100).map BMOut.ok = some true := by
  decide

/-- Witness for C3 at a concrete call: a success at budget exactly 0 whose
captured move is the second token of the decisive line, and an ignored junk
line consuming only time. -/
theorem engine_bestmove_success_iff_witness :
    ((⟨true, 0, some "e2e4", -5, [], []⟩ : BMOut).ok = true ↔
      bmSuccSpec [("bestmove e2e4", 5)] 0) ∧
    (∃ k, bmCaptureAt [("bestmove e2e4", 5)] 0 k
      (⟨true, 0, some "e2e4", -5, [], []⟩ : BMOut).best) ∧
    bmMain [("xyzzy 1", 3), ("bestmove a1a2", 0)] 9 0 =
      bmMain [("bestmove a1a2", 0)] (9 - ((3 : Nat) : Int)) 0 := by
  refine ⟨?_, ?_, ?_⟩
  · exact (engine_bestmove_success_iff [("bestmove e2e4", 5)] 0
      ⟨true, 0, some "e2e4", -5, [], []⟩ (by rfl)).1
  · exact (engine_bestmove_success_iff [("bestmove e2e4", 5)] 0
      ⟨true, 0, some "e2e4", -5, [], []⟩ (by rfl)).2.1 rfl
  · exact (engine_bestmove_success_iff [("bestmove e2e4", 5)] 0
      ⟨true, 0, some "e2e4", -5, [], []⟩ (by rfl)).2.2
      "xyzzy 1" 3 [("bestmove a1a2", 0)] 9 0 (by decide) (by decide) (by decide)

end CChessCli
